import Mathlib

/-!
# Podcast directory: the filter / sort / paginate derivation of `App.jsx`

A shallow embedding of `getFilteredAndSortedPodcasts`, `displayedPodcasts` and
`hasMore` from `src/App.jsx`, with the ECMAScript built-ins the source calls
(`String.prototype.includes`, `parseInt`, `Array.prototype.filter`, `sort`,
`slice`, `includes`) written out, and the host-defined ones
(`toLowerCase`, `localeCompare`, `new Date(...)`) collected in `Host`.

Conventions.
* A JavaScript string is modelled by a Lean `String` (well-formed Unicode text).
* The result of a comparator is an `Option Int`, `none` standing for `NaN`; `sort`
  uses it through its sign only. The result of `parseInt` is a `ParsedNumber`.
* Genre identifiers are integral Numbers, modelled by `Int`.
* `sort` follows the algorithm of the V8 engine (Node.js, Chrome) for arrays
  shorter than 64 elements: `CountAndMakeRun`, then `BinaryInsertionSort`.
-/

set_option exponentiation.threshold 1100

namespace PodcastApp

/-! ## Data model -/

/-- A podcast record as delivered by the fetch: the fields `App.jsx` reads. -/
structure Podcast where
  id : String
  title : String
  genres : List Int
  updated : String
  deriving DecidableEq, Repr

/-- An entry of the static genre table `genres` imported from `./data`. -/
structure Genre where
  id : Int
  title : String
  deriving DecidableEq, Repr

/-- The host-defined built-ins used by `App.jsx`.
`parseDate s` is the time value of `new Date(s)` in milliseconds, `none` for an
Invalid Date (whose time value is `NaN`). -/
structure Host where
  toLowerCase : String → String
  localeCompare : String → String → Int
  parseDate : String → Option Int

/-- The four `useState` selector slots of `App`. -/
structure Selectors where
  searchTerm : String
  sortOption : String
  selectedGenre : String
  displayCount : Int
  deriving DecidableEq, Repr

/-- The initial selector values: `useState("")`, `useState("a-z")`,
`useState("all")`, `useState(20)`. -/
def Selectors.initial : Selectors :=
  { searchTerm := "", sortOption := "a-z", selectedGenre := "all", displayCount := 20 }

/-! ## ECMAScript built-ins -/

/-- `String.prototype.includes`: `s.includes(t)` holds when `t` occurs in `s`
starting at some position. -/
def includes (s t : String) : Bool :=
  s.data.tails.any (fun u => t.data.isPrefixOf u)

/-- `StrWhiteSpaceChar`: the white space and line terminator code points that
`parseInt` skips at the start of its input. -/
def isStrWhiteSpaceChar (c : Char) : Bool :=
  c.val.toNat ∈ [0x09, 0x0A, 0x0B, 0x0C, 0x0D, 0x20, 0xA0, 0x1680, 0x2000, 0x2001, 0x2002,
    0x2003, 0x2004, 0x2005, 0x2006, 0x2007, 0x2008, 0x2009, 0x200A, 0x2028, 0x2029, 0x202F,
    0x205F, 0x3000, 0xFEFF]

/-- The value of a digit character in radix 10 or 16, `none` for any other character. -/
def digitValue (radix : Nat) (c : Char) : Option Nat :=
  let n := c.val.toNat
  if 48 ≤ n ∧ n ≤ 57 then some (n - 48)
  else if radix = 16 ∧ 97 ≤ n ∧ n ≤ 102 then some (n - 87)
  else if radix = 16 ∧ 65 ≤ n ∧ n ≤ 70 then some (n - 55)
  else none

/-- The longest prefix of digit characters, as digit values. -/
def takeDigits (radix : Nat) : List Char → List Nat
  | [] => []
  | c :: cs =>
    match digitValue radix c with
    | some d => d :: takeDigits radix cs
    | none => []

/-- The integer a digit sequence denotes in the given radix. -/
def digitsToNat (radix : Nat) (ds : List Nat) : Nat :=
  ds.foldl (fun acc d => acc * radix + d) 0

/-- The Number values that `parseInt` can return: `NaN`, an integral Number, or
an infinity. -/
inductive ParsedNumber where
  | nan
  | integer (n : Int)
  | infinity (negative : Bool)
  deriving DecidableEq, Repr

/-- The number of low-order bits that a natural number has beyond the 53 bits of
a double-precision significand; `fuel` bounds the number of halvings. -/
def excessBits : Nat → Nat → Nat
  | 0, _ => 0
  | fuel + 1, m => if m < 2 ^ 53 then 0 else excessBits fuel (m / 2) + 1

/-- The Number value for a natural number: the nearest double, a tie going to
the even significand; `none` stands for `Infinity`, reached from
`2 ^ 1024 - 2 ^ 970` on. -/
def roundToDouble (m : Nat) : Option Nat :=
  let e := excessBits m m
  let q := m / 2 ^ e
  let r := m % 2 ^ e
  let roundUp : Bool := decide (2 ^ e < 2 * r) || (decide (2 * r = 2 ^ e) && decide (q % 2 = 1))
  let v := (if roundUp then q + 1 else q) * 2 ^ e
  if v < 2 ^ 1024 then some v else none

/-- `parseInt(string)` with no radix argument: skip leading white space, read an
optional sign, an optional `0x`/`0X` prefix, then the longest run of digits;
`NaN` when there is no digit, otherwise the Number value for the signed integer
the digits denote. Where ECMAScript lets an implementation drop decimal digits
after the twentieth, this definition rounds the exact value. -/
def parseInt (s : String) : ParsedNumber :=
  let s1 := s.data.dropWhile isStrWhiteSpaceChar
  let negative : Bool := match s1 with
    | '-' :: _ => true
    | _ => false
  let s2 := match s1 with
    | '-' :: r => r
    | '+' :: r => r
    | _ => s1
  let radix : Nat := match s2 with
    | '0' :: 'x' :: _ => 16
    | '0' :: 'X' :: _ => 16
    | _ => 10
  let s3 := match s2 with
    | '0' :: 'x' :: r => r
    | '0' :: 'X' :: r => r
    | _ => s2
  let z := takeDigits radix s3
  if z = [] then ParsedNumber.nan
  else
    match roundToDouble (digitsToNat radix z) with
    | some v => ParsedNumber.integer (if negative then -(v : Int) else (v : Int))
    | none => ParsedNumber.infinity negative

/-- `Array.prototype.includes` on an array of integral Numbers, searched for the
result of `parseInt`: neither `NaN` nor an infinity is equal to an integral
Number, and `-0` equals `+0`. -/
def numIncludes (xs : List Int) (v : ParsedNumber) : Bool :=
  match v with
  | ParsedNumber.integer n => xs.contains n
  | _ => false

/-- The abstract operation `SortCompare` applied to a user comparator: a `NaN`
result counts as `+0`. -/
def sortCompare {α : Type} (comparefn : α → α → Option Int) (x y : α) : Int :=
  (comparefn x y).getD 0

/-- The loop of the engine's `CountAndMakeRun`: how many of the following
elements continue the run that ends in `previousElement`. A descending run goes
on while the comparison of each element with its predecessor is negative, an
ascending run while it is not negative. -/
def runLoop {α : Type} (comparefn : α → α → Option Int) (isDescending : Bool)
    (previousElement : α) : List α → Nat
  | [] => 0
  | currentElement :: rest =>
    if isDescending then
      (if 0 ≤ sortCompare comparefn currentElement previousElement then 0
       else runLoop comparefn isDescending currentElement rest + 1)
    else
      (if sortCompare comparefn currentElement previousElement < 0 then 0
       else runLoop comparefn isDescending currentElement rest + 1)

/-- The engine's `CountAndMakeRun` on the whole array: the length of the initial
run and whether it is strictly descending, decided by comparing the second
element with the first. -/
def countRun {α : Type} (comparefn : α → α → Option Int) : List α → Nat × Bool
  | [] => (0, false)
  | [_] => (1, false)
  | elementHigh :: elementLow :: rest =>
    let isDescending : Bool := decide (sortCompare comparefn elementLow elementHigh < 0)
    (runLoop comparefn isDescending elementLow rest + 2, isDescending)

/-- The search loop of the engine's `BinaryInsertionSort`: the insertion point
of `pivot` between `left` and `right` in the ordered part `work`; `fuel` bounds
the number of iterations. -/
def binarySearch {α : Type} (comparefn : α → α → Option Int) (pivot : α) (work : List α) :
    Nat → Nat → Nat → Nat
  | 0, left, _ => left
  | fuel + 1, left, right =>
    if left < right then
      let mid := left + (right - left) / 2
      match work[mid]? with
      | some element =>
        if sortCompare comparefn pivot element < 0 then
          binarySearch comparefn pivot work fuel left mid
        else binarySearch comparefn pivot work fuel (mid + 1) right
      | none => left
    else left

/-- The engine's `BinaryInsertionSort`: each pending element in turn is put into
the ordered part `work` at the place found by `binarySearch`. -/
def binaryInsertionSort {α : Type} (comparefn : α → α → Option Int) :
    List α → List α → List α
  | work, [] => work
  | work, pivot :: pending =>
    let left := binarySearch comparefn pivot work work.length 0 work.length
    binaryInsertionSort comparefn (work.take left ++ pivot :: work.drop left) pending

/-- `Array.prototype.sort(comparefn)` as the V8 engine runs it on an array
shorter than 64 elements: an array of fewer than two elements is left alone; otherwise
the initial run is found, reversed if it is descending, and the remaining
elements are added by binary insertion. On a longer array the engine builds
several such runs and merges them; with a comparator that is consistent on the
array that gives the same list, the one stable ordering of the array. -/
def sort {α : Type} (comparefn : α → α → Option Int) (items : List α) : List α :=
  if items.length < 2 then items
  else
    let run := items.take (countRun comparefn items).1
    binaryInsertionSort comparefn
      (if (countRun comparefn items).2 then run.reverse else run)
      (items.drop (countRun comparefn items).1)

/-- The index that `Array.prototype.slice` derives from a relative argument:
a negative argument counts from the end, and the result is clamped to `[0, len]`. -/
def sliceIndex (len : Nat) (rel : Int) : Nat :=
  if rel < 0 then (len + rel).toNat else min rel.toNat len

/-- `Array.prototype.slice(start, stop)` for integral arguments. -/
def slice {α : Type} (xs : List α) (start stop : Int) : List α :=
  let k := sliceIndex xs.length start
  let final := sliceIndex xs.length stop
  (xs.drop k).take (final - k)

/-! ## `App.jsx` -/

/-- Stage 1 of `getFilteredAndSortedPodcasts` (lines 38-42): the search filter,
skipped when `searchTerm` is the empty string (the only falsy string). -/
def searchFilter (h : Host) (searchTerm : String) (filtered : List Podcast) : List Podcast :=
  if searchTerm ≠ "" then
    filtered.filter (fun podcast =>
      includes (h.toLowerCase podcast.title) (h.toLowerCase searchTerm))
  else filtered

/-- Stage 2 of `getFilteredAndSortedPodcasts` (lines 45-49): the genre filter. -/
def genreFilter (selectedGenre : String) (filtered : List Podcast) : List Podcast :=
  if selectedGenre ≠ "all" then
    filtered.filter (fun podcast => numIncludes podcast.genres (parseInt selectedGenre))
  else filtered

/-- The subtraction `new Date(x) - new Date(y)`: `NaN` as soon as one of the two
dates is invalid. -/
def dateDiff (h : Host) (x y : String) : Option Int :=
  match h.parseDate x, h.parseDate y with
  | some tx, some ty => some (tx - ty)
  | _, _ => none

/-- The comparator passed to `filtered.sort` (lines 52-65). -/
def compareFn (h : Host) (sortOption : String) (a b : Podcast) : Option Int :=
  if sortOption = "a-z" then some (h.localeCompare a.title b.title)
  else if sortOption = "z-a" then some (h.localeCompare b.title a.title)
  else if sortOption = "most-recent" then dateDiff h b.updated a.updated
  else if sortOption = "oldest" then dateDiff h a.updated b.updated
  else some 0

/-- The list `filtered` as it stands just before `filtered.sort` (after line 49). -/
def filteredBeforeSort (h : Host) (podcasts : List Podcast) (s : Selectors) : List Podcast :=
  genreFilter s.selectedGenre (searchFilter h s.searchTerm podcasts)

/-- `getFilteredAndSortedPodcasts` (lines 34-68). -/
def getFilteredAndSortedPodcasts (h : Host) (podcasts : List Podcast) (s : Selectors) :
    List Podcast :=
  sort (compareFn h s.sortOption) (filteredBeforeSort h podcasts s)

/-- `displayedPodcasts` (line 71). -/
def displayedPodcasts (h : Host) (podcasts : List Podcast) (s : Selectors) : List Podcast :=
  slice (getFilteredAndSortedPodcasts h podcasts s) 0 s.displayCount

/-- `hasMore` (line 72). -/
def hasMore (h : Host) (podcasts : List Podcast) (s : Selectors) : Bool :=
  decide (s.displayCount < ((getFilteredAndSortedPodcasts h podcasts s).length : Int))

/-! ## A reference host

A concrete `Host` on which the definitions can be evaluated. It follows
ECMAScript on the fragment described at each definition; outside that fragment a
real host may answer differently. -/

/-- Lower-casing of the ASCII capital letters; any other character is kept. On
ASCII text this is `String.prototype.toLowerCase`. -/
def asciiToLowerCase (s : String) : String :=
  String.mk (s.data.map (fun c =>
    if 65 ≤ c.val.toNat ∧ c.val.toNat ≤ 90 then Char.ofNat (c.val.toNat + 32) else c))

/-- Canonical decomposition, for the one precomposed letter of the fragment:
U+00E9 decomposes into `e` followed by the combining acute accent U+0301. -/
def canonicalDecomposition (c : Char) : List Char :=
  if c.val.toNat = 0xE9 then ['e', Char.ofNat 0x301] else [c]

/-- The primary (letter), secondary (accent) and tertiary (case) collation weight
of a character; weight `0` means the character is ignored at that level. Letters
of the ASCII alphabet have one primary weight per letter whatever their case, and
lower case sorts before upper case at the tertiary level; the combining acute
accent has a secondary weight only. Other characters are ranked by code point. -/
def collationWeights (c : Char) : Nat × Nat × Nat :=
  let n := c.val.toNat
  if 97 ≤ n ∧ n ≤ 122 then (0x110000 + (n - 96), 0x20, 2)
  else if 65 ≤ n ∧ n ≤ 90 then (0x110000 + (n - 64), 0x20, 8)
  else if n = 0x301 then (0, 0x24, 2)
  else (n + 1, 0x20, 2)

/-- The collation sort key: the non-zero primary weights, a separator, the
secondary weights, a separator, the tertiary weights. -/
def sortKey (s : String) : List Nat :=
  let ws := (s.data.flatMap canonicalDecomposition).map collationWeights
  (ws.map (fun w => w.1)).filter (fun p => p ≠ 0) ++ 0 ::
    (ws.map (fun w => w.2.1)) ++ 0 :: (ws.map (fun w => w.2.2))

/-- Three-way lexicographic comparison of two sort keys: `-1`, `0` or `1`. -/
def compareKeys : List Nat → List Nat → Int
  | [], [] => 0
  | [], _ :: _ => -1
  | _ :: _, [] => 1
  | a :: as, b :: bs => if a < b then -1 else if b < a then 1 else compareKeys as bs

/-- A model of `String.prototype.localeCompare` under the default collation, on
text made of ASCII letters, U+00E9 and U+0301: alphabetical order first, accents
next, case last, and canonically equivalent strings compare equal. -/
def collationCompare (s t : String) : Int :=
  compareKeys (sortKey s) (sortKey t)

/-- Days between 1970-01-01 and the given proleptic Gregorian date. -/
def daysFromCivil (year month day : Int) : Int :=
  let y := if month ≤ 2 then year - 1 else year
  let era := y / 400
  let yoe := y - era * 400
  let mp := if month > 2 then month - 3 else month + 9
  let doy := (153 * mp + 2) / 5 + day - 1
  let doe := yoe * 365 + yoe / 4 - yoe / 100 + doy
  era * 146097 + doe - 719468

/-- Number of days of a month of the proleptic Gregorian calendar. -/
def daysInMonth (year month : Nat) : Nat :=
  if month = 2 then
    (if year % 4 = 0 ∧ (year % 100 ≠ 0 ∨ year % 400 = 0) then 29 else 28)
  else if month = 4 ∨ month = 6 ∨ month = 9 ∨ month = 11 then 30
  else 31

/-- The time value of `new Date(s)` for the date-only form `YYYY-MM-DD` of the
ECMAScript date-time string format, which denotes midnight UTC; every other
string is an Invalid Date here. -/
def parseIsoDate (s : String) : Option Int :=
  match s.data with
  | [y1, y2, y3, y4, '-', m1, m2, '-', d1, d2] =>
    match digitValue 10 y1, digitValue 10 y2, digitValue 10 y3, digitValue 10 y4,
      digitValue 10 m1, digitValue 10 m2, digitValue 10 d1, digitValue 10 d2 with
    | some a, some b, some c, some d, some e, some f, some g, some i =>
      let year := a * 1000 + b * 100 + c * 10 + d
      let month := e * 10 + f
      let day := g * 10 + i
      if 1 ≤ month ∧ month ≤ 12 ∧ 1 ≤ day ∧ day ≤ daysInMonth year month then
        some (daysFromCivil year month day * 86400000)
      else none
    | _, _, _, _, _, _, _, _ => none
  | _ => none

/-- The reference host. -/
def refHost : Host :=
  { toLowerCase := asciiToLowerCase
    localeCompare := collationCompare
    parseDate := parseIsoDate }

/-! ## Sample data -/

/-- The three records of the end-to-end scenarios: Alpha (genre 1, day 3),
beta (genre 2, day 1), Gamma (genre 1, day 2). -/
def scenarioRecords : List Podcast :=
  [ { id := "1", title := "Alpha", genres := [1], updated := "2024-01-03" },
    { id := "2", title := "beta", genres := [2], updated := "2024-01-01" },
    { id := "3", title := "Gamma", genres := [1], updated := "2024-01-02" } ]

/-- A genre table with the identifiers 1 and 2. -/
def scenarioCatalog : List Genre :=
  [ { id := 1, title := "Personal Growth" }, { id := 2, title := "Investigative Journalism" } ]

/-- A record whose only genre identifier, 99, has no entry in `scenarioCatalog`. -/
def uncataloguedRecord : Podcast :=
  { id := "4", title := "Delta", genres := [99], updated := "2024-01-04" }

/-- Two records whose titles are different strings that are canonically
equivalent: U+00E9 on the one hand, `e` followed by U+0301 on the other. -/
def equivalentTitleRecords : List Podcast :=
  [ { id := "1", title := String.mk [Char.ofNat 0xE9], genres := [1], updated := "2024-01-01" },
    { id := "2", title := String.mk ['e', Char.ofNat 0x301], genres := [1],
      updated := "2024-01-02" } ]

/-- A record updated on 2024-01-01. -/
def datedEarly : Podcast :=
  { id := "1", title := "Alpha", genres := [1], updated := "2024-01-01" }

/-- A record whose `updated` value is the empty string, which is not a date. -/
def undated : Podcast :=
  { id := "2", title := "beta", genres := [2], updated := "" }

/-- A record updated on 2024-01-02. -/
def datedLate : Podcast :=
  { id := "3", title := "Gamma", genres := [1], updated := "2024-01-02" }

/-- A record list in which the middle record has an `updated` value that is not
a date. -/
def malformedDateRecords : List Podcast :=
  [datedEarly, undated, datedLate]

/-- A record titled Echo. -/
def echoFirst : Podcast :=
  { id := "1", title := "Echo", genres := [1], updated := "2024-01-01" }

/-- A second record titled Echo. -/
def echoSecond : Podcast :=
  { id := "3", title := "Echo", genres := [2], updated := "2024-01-03" }

/-- Two records with the same title, separated by a record titled Alpha. -/
def sameTitleRecords : List Podcast :=
  [echoFirst, { id := "2", title := "Alpha", genres := [1], updated := "2024-01-02" },
    echoSecond]

/-- The state after `setSortOption(opt)`. -/
def setSortOption (s : Selectors) (opt : String) : Selectors :=
  { s with sortOption := opt }

/-- A record whose genre identifier is `2 ^ 53`. -/
def largeGenreRecord : Podcast :=
  { id := "5", title := "Epsilon", genres := [9007199254740992], updated := "2024-01-05" }

/-- Seven records, the fourth without a date, the fifth and the seventh updated
on the same day. -/
def undatedAmongSeven : List Podcast :=
  [ { id := "1", title := "A", genres := [1], updated := "2024-01-01" },
    { id := "2", title := "B", genres := [1], updated := "2024-01-01" },
    { id := "3", title := "C", genres := [1], updated := "2024-01-01" },
    { id := "4", title := "D", genres := [1], updated := "" },
    { id := "5", title := "E", genres := [1], updated := "2024-01-02" },
    { id := "6", title := "F", genres := [1], updated := "2024-01-03" },
    { id := "7", title := "G", genres := [1], updated := "2024-01-02" } ]

/-- The fifth record of `undatedAmongSeven`. -/
def fifthOfSeven : Podcast :=
  { id := "5", title := "E", genres := [1], updated := "2024-01-02" }

/-- The seventh record of `undatedAmongSeven`. -/
def seventhOfSeven : Podcast :=
  { id := "7", title := "G", genres := [1], updated := "2024-01-02" }

/-- The initial selectors with `displayCount` set to 1. -/
def oneAtATime : Selectors :=
  { searchTerm := "", sortOption := "a-z", selectedGenre := "all", displayCount := 1 }

/-! ## Comparators -/

/-- A comparator is consistent on a set of values, as `sort` sees it (a `NaN`
result read as `+0`): its sign is antisymmetric, and both "compares equal" and
"compares less" are transitive. -/
structure ConsistentOn {α : Type} (comparefn : α → α → Option Int) (S : α → Prop) : Prop where
  antisymm : ∀ a b, S a → S b →
    (sortCompare comparefn a b < 0 ↔ 0 < sortCompare comparefn b a)
  trans_eq : ∀ a b c, S a → S b → S c →
    sortCompare comparefn a b = 0 → sortCompare comparefn b c = 0 →
    sortCompare comparefn a c = 0
  trans_lt : ∀ a b c, S a → S b → S c →
    sortCompare comparefn a b < 0 → sortCompare comparefn b c < 0 →
    sortCompare comparefn a c < 0

/-- The requirement ECMAScript puts on `localeCompare`: a consistent comparator
on the set of all strings. -/
def Host.Consistent (h : Host) : Prop :=
  ConsistentOn (fun s t : String => some (h.localeCompare s t)) (fun _ => True)

/-- The record has an `updated` value that the host parses to a time value. -/
def hasValidDate (h : Host) (p : Podcast) : Prop :=
  (h.parseDate p.updated).isSome = true

instance hasValidDate.decidable (h : Host) (p : Podcast) : Decidable (hasValidDate h p) :=
  inferInstanceAs (Decidable ((h.parseDate p.updated).isSome = true))


/-! ## Lemmas on comparators and `sort` -/

section SortLemmas

variable {α : Type} (cmp : α → α → Option Int)

theorem ConsistentOn.mono {S T : α → Prop} (hc : ConsistentOn cmp S) (hTS : ∀ a, T a → S a) :
    ConsistentOn cmp T :=
  ⟨fun a b ha hb => hc.antisymm a b (hTS a ha) (hTS b hb),
   fun a b c ha hb hc' => hc.trans_eq a b c (hTS a ha) (hTS b hb) (hTS c hc'),
   fun a b c ha hb hc' => hc.trans_lt a b c (hTS a ha) (hTS b hb) (hTS c hc')⟩

theorem ConsistentOn.total {S : α → Prop} (hc : ConsistentOn cmp S) {a b : α} (ha : S a)
    (hb : S b) : sortCompare cmp a b ≤ 0 ∨ sortCompare cmp b a ≤ 0 := by
  have h1 := hc.antisymm a b ha hb
  have h2 := hc.antisymm b a hb ha
  by_contra hcon
  push_neg at hcon
  have := h2.mpr hcon.1
  omega

theorem ConsistentOn.eq_symm {S : α → Prop} (hc : ConsistentOn cmp S) {a b : α} (ha : S a)
    (hb : S b) (h0 : sortCompare cmp a b = 0) : sortCompare cmp b a = 0 := by
  have h1 := hc.antisymm a b ha hb
  have h2 := hc.antisymm b a hb ha
  rcases lt_trichotomy (sortCompare cmp b a) 0 with h | h | h
  · have := h2.mp h; omega
  · exact h
  · have := h1.mpr h; omega

theorem ConsistentOn.trans_le {S : α → Prop} (hc : ConsistentOn cmp S) {a b c : α} (ha : S a)
    (hb : S b) (hc' : S c) (hab : sortCompare cmp a b ≤ 0) (hbc : sortCompare cmp b c ≤ 0) :
    sortCompare cmp a c ≤ 0 := by
  by_contra hcon
  push_neg at hcon
  have hca : sortCompare cmp c a < 0 := (hc.antisymm c a hc' ha).mpr hcon
  rcases lt_or_eq_of_le hab with hab | hab <;> rcases lt_or_eq_of_le hbc with hbc | hbc
  · have := hc.trans_lt a b c ha hb hc' hab hbc; omega
  · have hcb := hc.trans_lt c a b hc' ha hb hca hab
    have := hc.eq_symm cmp hb hc' hbc; omega
  · have hba := hc.trans_lt b c a hb hc' ha hbc hca
    have := hc.eq_symm cmp ha hb hab; omega
  · have := hc.trans_eq a b c ha hb hc' hab hbc; omega

/-- Not comparing less than an element is comparing at most equal the other way. -/
theorem ConsistentOn.le_of_not_lt {S : α → Prop} (hc : ConsistentOn cmp S) {a b : α}
    (ha : S a) (hb : S b) (h : ¬ sortCompare cmp b a < 0) : sortCompare cmp a b ≤ 0 := by
  have := hc.antisymm b a hb ha
  by_contra hcon
  push_neg at hcon
  exact h (this.mpr hcon)

theorem ConsistentOn.not_lt_of_le {S : α → Prop} (hc : ConsistentOn cmp S) {a b : α}
    (ha : S a) (hb : S b) (h : sortCompare cmp a b ≤ 0) : ¬ sortCompare cmp b a < 0 := by
  have := hc.antisymm b a hb ha
  intro hlt
  have := this.mp hlt
  omega

theorem ConsistentOn.lt_of_lt_of_le {S : α → Prop} (hc : ConsistentOn cmp S) {a b c : α}
    (ha : S a) (hb : S b) (hc' : S c) (hab : sortCompare cmp a b < 0)
    (hbc : sortCompare cmp b c ≤ 0) : sortCompare cmp a c < 0 := by
  by_contra hcon
  have hca : sortCompare cmp c a ≤ 0 := hc.le_of_not_lt cmp hc' ha hcon
  have hba : sortCompare cmp b a ≤ 0 := hc.trans_le cmp hb hc' ha hbc hca
  exact hc.not_lt_of_le cmp hb ha hba hab

/-! ### The run at the start of the array -/

theorem runLoop_le_length (desc : Bool) (prev : α) (rest : List α) :
    runLoop cmp desc prev rest ≤ rest.length := by
  induction rest generalizing prev with
  | nil => simp [runLoop]
  | cons x xs ih =>
    unfold runLoop
    have := ih x
    split_ifs <;> simp <;> omega

/-- An ascending run is in order. -/
theorem runLoop_ascending {S : α → Prop} (hc : ConsistentOn cmp S) (prev : α) (rest : List α)
    (hp : S prev) (hr : ∀ a ∈ rest, S a) :
    (prev :: rest.take (runLoop cmp false prev rest)).Pairwise
      (fun a b => sortCompare cmp a b ≤ 0) := by
  induction rest generalizing prev with
  | nil => simp [runLoop]
  | cons x xs ih =>
    have hx : S x := hr x (List.mem_cons_self _ _)
    have hxs : ∀ a ∈ xs, S a := fun a ha => hr a (List.mem_cons_of_mem _ ha)
    unfold runLoop
    simp only [Bool.false_eq_true, if_false]
    split_ifs with hlt
    · simp
    · rw [List.take_succ_cons]
      have ih' := ih x hx hxs
      refine List.Pairwise.cons ?_ ih'
      have hpx : sortCompare cmp prev x ≤ 0 := hc.le_of_not_lt cmp hp hx hlt
      intro y hy
      rcases List.mem_cons.mp hy with rfl | hy
      · exact hpx
      · have hSy : S y := hxs y (List.mem_of_mem_take hy)
        exact hc.trans_le cmp hp hx hSy hpx ((List.pairwise_cons.mp ih').1 y hy)

/-- A descending run is strictly descending throughout. -/
theorem runLoop_descending {S : α → Prop} (hc : ConsistentOn cmp S) (prev : α) (rest : List α)
    (hp : S prev) (hr : ∀ a ∈ rest, S a) :
    (prev :: rest.take (runLoop cmp true prev rest)).Pairwise
      (fun a b => sortCompare cmp b a < 0) := by
  induction rest generalizing prev with
  | nil => simp [runLoop]
  | cons x xs ih =>
    have hx : S x := hr x (List.mem_cons_self _ _)
    have hxs : ∀ a ∈ xs, S a := fun a ha => hr a (List.mem_cons_of_mem _ ha)
    unfold runLoop
    simp only [if_true]
    split_ifs with hge
    · simp
    · rw [List.take_succ_cons]
      have ih' := ih x hx hxs
      refine List.Pairwise.cons ?_ ih'
      have hxp : sortCompare cmp x prev < 0 := by omega
      intro y hy
      rcases List.mem_cons.mp hy with rfl | hy
      · exact hxp
      · have hSy : S y := hxs y (List.mem_of_mem_take hy)
        exact hc.trans_lt y x prev hSy hx hp ((List.pairwise_cons.mp ih').1 y hy) hxp

/-! ### Binary insertion -/

/-- When the elements that `pivot` does not compare less than come first, the
search returns their number. -/
theorem binarySearch_eq_length (pivot : α) (front back : List α)
    (hfront : ∀ a ∈ front, ¬ sortCompare cmp pivot a < 0)
    (hback : ∀ b ∈ back, sortCompare cmp pivot b < 0) (fuel left right : Nat)
    (hl : left ≤ front.length) (hr : front.length ≤ right)
    (hrw : right ≤ (front ++ back).length) (hfuel : right - left ≤ fuel) :
    binarySearch cmp pivot (front ++ back) fuel left right = front.length := by
  induction fuel generalizing left right with
  | zero =>
    unfold binarySearch
    omega
  | succ fuel ih =>
    unfold binarySearch
    by_cases hlr : left < right
    · rw [if_pos hlr]
      have hmid : left + (right - left) / 2 < right := by omega
      have hmidlen : left + (right - left) / 2 < (front ++ back).length := by omega
      simp only [List.getElem?_eq_getElem hmidlen]
      by_cases hmf : left + (right - left) / 2 < front.length
      · have hmem : (front ++ back)[left + (right - left) / 2] ∈ front := by
          rw [List.getElem_append_left hmf]
          exact List.getElem_mem _
        rw [if_neg (hfront _ hmem)]
        exact ih _ _ (by omega) hr hrw (by omega)
      · have hmem : (front ++ back)[left + (right - left) / 2] ∈ back := by
          rw [List.getElem_append_right (by omega)]
          exact List.getElem_mem _
        rw [if_pos (hback _ hmem)]
        exact ih _ _ hl (by omega) (by omega) (by omega)
    · rw [if_neg hlr]
      omega

/-- In an ordered list the elements that `pivot` compares less than come last. -/
theorem exists_split_of_pairwise {S : α → Prop} (hc : ConsistentOn cmp S) (pivot : α)
    (work : List α) (hp : S pivot) (hw : ∀ a ∈ work, S a)
    (hsorted : work.Pairwise (fun a b => sortCompare cmp a b ≤ 0)) :
    ∃ front back, work = front ++ back ∧
      (∀ a ∈ front, ¬ sortCompare cmp pivot a < 0) ∧
      (∀ b ∈ back, sortCompare cmp pivot b < 0) := by
  induction work with
  | nil => exact ⟨[], [], rfl, by simp, by simp⟩
  | cons x xs ih =>
    rw [List.pairwise_cons] at hsorted
    by_cases hx : sortCompare cmp pivot x < 0
    · refine ⟨[], x :: xs, rfl, by simp, ?_⟩
      intro b hb
      rcases List.mem_cons.mp hb with rfl | hb
      · exact hx
      · exact hc.lt_of_lt_of_le cmp hp (hw x (List.mem_cons_self _ _))
          (hw b (List.mem_cons_of_mem _ hb)) hx (hsorted.1 b hb)
    · obtain ⟨front, back, hfb, hf, hb⟩ :=
        ih (fun a ha => hw a (List.mem_cons_of_mem _ ha)) hsorted.2
      refine ⟨x :: front, back, by rw [hfb]; rfl, ?_, hb⟩
      intro a ha
      rcases List.mem_cons.mp ha with rfl | ha
      · exact hx
      · exact hf a ha

theorem sublist_left_of_not_mem_right {c front back : List α} (hsub : c.Sublist (front ++ back))
    (hnot : ∀ y ∈ c, y ∉ back) : c.Sublist front := by
  obtain ⟨c1, c2, hc12, h1, h2⟩ := List.sublist_append_iff.mp hsub
  have hc2 : c2 = [] := by
    cases c2 with
    | nil => rfl
    | cons y ys =>
      exact absurd (h2.subset (List.mem_cons_self y ys))
        (hnot y (by rw [hc12]; exact List.mem_append_right _ (List.mem_cons_self y ys)))
  rw [hc12, hc2, List.append_nil]
  exact h1

theorem binaryInsertionSort_perm (work pending : List α) :
    (binaryInsertionSort cmp work pending).Perm (work ++ pending) := by
  induction pending generalizing work with
  | nil => simp [binaryInsertionSort]
  | cons pivot pending ih =>
    unfold binaryInsertionSort
    refine (ih _).trans ?_
    have h1 : (List.take (binarySearch cmp pivot work work.length 0 work.length) work ++
        pivot :: List.drop (binarySearch cmp pivot work work.length 0 work.length) work).Perm
        (pivot :: work) := by
      refine List.perm_middle.trans ?_
      rw [List.take_append_drop]
    exact (List.Perm.append_right pending h1).trans List.perm_middle.symm

/-- Binary insertion keeps the ordered part ordered and stable, given a
comparator that is consistent on the elements involved. -/
theorem binaryInsertionSort_spec {S : α → Prop} (hc : ConsistentOn cmp S)
    (pending done work : List α) (hd : ∀ a ∈ done, S a) (hp : ∀ a ∈ pending, S a)
    (hperm : work.Perm done)
    (hsorted : work.Pairwise (fun a b => sortCompare cmp a b ≤ 0))
    (hstable : ∀ c : List α, c.Sublist done →
      c.Pairwise (fun a b => sortCompare cmp a b ≤ 0) → c.Sublist work) :
    (binaryInsertionSort cmp work pending).Pairwise (fun a b => sortCompare cmp a b ≤ 0) ∧
      ∀ c : List α, c.Sublist (done ++ pending) →
        c.Pairwise (fun a b => sortCompare cmp a b ≤ 0) →
        c.Sublist (binaryInsertionSort cmp work pending) := by
  induction pending generalizing done work with
  | nil =>
    simp only [binaryInsertionSort, List.append_nil]
    exact ⟨hsorted, hstable⟩
  | cons pivot pending ih =>
    have hSp : S pivot := hp pivot (List.mem_cons_self _ _)
    have hw : ∀ a ∈ work, S a := fun a ha => hd a (hperm.mem_iff.mp ha)
    obtain ⟨front, back, hfb, hf, hb⟩ := exists_split_of_pairwise cmp hc pivot work hSp hw hsorted
    have hk : binarySearch cmp pivot work work.length 0 work.length = front.length := by
      rw [hfb]
      exact binarySearch_eq_length cmp pivot front back hf hb _ 0 _ (Nat.zero_le _)
        (by simp) (le_refl _) (by simp)
    have hnew : List.take (binarySearch cmp pivot work work.length 0 work.length) work ++
        pivot :: List.drop (binarySearch cmp pivot work work.length 0 work.length) work =
        front ++ pivot :: back := by
      rw [hk, hfb, List.take_left, List.drop_left]
    unfold binaryInsertionSort
    simp only [hnew]
    have hfS : ∀ a ∈ front, S a := fun a ha => hw a (by rw [hfb]; exact List.mem_append_left _ ha)
    have hbS : ∀ a ∈ back, S a := fun a ha => hw a (by rw [hfb]; exact List.mem_append_right _ ha)
    rw [hfb, List.pairwise_append] at hsorted
    have hres := ih (done ++ [pivot]) (front ++ pivot :: back)
      (by
        intro a ha
        rcases List.mem_append.mp ha with ha | ha
        · exact hd a ha
        · rw [List.mem_singleton.mp ha]; exact hSp)
      (fun a ha => hp a (List.mem_cons_of_mem _ ha))
      (by
        have hperm' : (front ++ back).Perm done := by
          rw [← hfb]
          exact hperm
        exact (List.perm_middle.trans (List.Perm.cons pivot hperm')).trans
          (List.perm_append_singleton pivot done).symm)
      (by
        rw [List.pairwise_append]
        refine ⟨hsorted.1, List.Pairwise.cons ?_ hsorted.2.1, ?_⟩
        · intro b hb'
          exact le_of_lt (hb b hb')
        · intro a ha b hb'
          rcases List.mem_cons.mp hb' with rfl | hb'
          · exact hc.le_of_not_lt cmp (hfS a ha) hSp (hf a ha)
          · exact hsorted.2.2 a ha b hb')
      (by
        intro c hcsub hcpair
        obtain ⟨c1, c2, hc12, h1, h2⟩ := List.sublist_append_iff.mp hcsub
        rw [hc12] at hcpair ⊢
        rw [List.pairwise_append] at hcpair
        have hc1w : c1.Sublist (front ++ back) := by
          rw [← hfb]
          exact hstable c1 h1 hcpair.1
        rcases List.sublist_singleton.mp h2 with hc2 | hc2
        · rw [hc2, List.append_nil]
          exact hc1w.trans (List.Sublist.append_left (List.sublist_cons_self pivot back) front)
        · rw [hc2]
          have hc1f : c1.Sublist front := by
            refine sublist_left_of_not_mem_right hc1w ?_
            intro y hy hyb
            have hyp : sortCompare cmp y pivot ≤ 0 :=
              hcpair.2.2 y hy pivot (by rw [hc2]; exact List.mem_singleton_self _)
            exact hc.not_lt_of_le cmp (hbS y hyb) hSp hyp (hb y hyb)
          exact List.Sublist.append hc1f
            (List.Sublist.cons₂ pivot (List.nil_sublist back)))
    rw [List.append_assoc] at hres
    exact hres

/-! ### The whole sort -/

/-- The initial run, once reversed if it is descending, is an ordered and stable
arrangement of the elements it is made of. -/
theorem countRun_spec {S : α → Prop} (hc : ConsistentOn cmp S) (items : List α)
    (hS : ∀ a ∈ items, S a) :
    ((if (countRun cmp items).2 then (items.take (countRun cmp items).1).reverse
        else items.take (countRun cmp items).1).Perm (items.take (countRun cmp items).1)) ∧
      (if (countRun cmp items).2 then (items.take (countRun cmp items).1).reverse
        else items.take (countRun cmp items).1).Pairwise
          (fun a b => sortCompare cmp a b ≤ 0) ∧
      ∀ c : List α, c.Sublist (items.take (countRun cmp items).1) →
        c.Pairwise (fun a b => sortCompare cmp a b ≤ 0) →
        c.Sublist (if (countRun cmp items).2 then (items.take (countRun cmp items).1).reverse
          else items.take (countRun cmp items).1) := by
  match items, hS with
  | [], _ => simp [countRun]
  | [a], _ => simp [countRun]
  | a0 :: a1 :: rest, hS =>
    have h0 : S a0 := hS a0 (List.mem_cons_self _ _)
    have h1 : S a1 := hS a1 (List.mem_cons_of_mem _ (List.mem_cons_self _ _))
    have hrest : ∀ a ∈ rest, S a :=
      fun a ha => hS a (List.mem_cons_of_mem _ (List.mem_cons_of_mem _ ha))
    by_cases hdesc : sortCompare cmp a1 a0 < 0
    · have hrun : (a0 :: a1 :: rest.take (runLoop cmp true a1 rest)).Pairwise
          (fun a b => sortCompare cmp b a < 0) := by
        have hr := runLoop_descending cmp hc a1 rest h1 hrest
        refine List.Pairwise.cons ?_ hr
        intro y hy
        rcases List.mem_cons.mp hy with rfl | hy
        · exact hdesc
        · exact hc.trans_lt y a1 a0 (hrest y (List.mem_of_mem_take hy)) h1 h0
            ((List.pairwise_cons.mp hr).1 y hy) hdesc
      have hrunS : ∀ a ∈ a0 :: a1 :: rest.take (runLoop cmp true a1 rest), S a := by
        intro a ha
        rcases List.mem_cons.mp ha with rfl | ha
        · exact h0
        · rcases List.mem_cons.mp ha with rfl | ha
          · exact h1
          · exact hrest a (List.mem_of_mem_take ha)
      simp only [countRun, hdesc, decide_True, if_true, List.take_succ_cons]
      refine ⟨List.reverse_perm _, ?_, ?_⟩
      · rw [List.pairwise_reverse]
        exact hrun.imp (fun h => le_of_lt h)
      · intro c hcsub hcpair
        have hcdesc := hrun.sublist hcsub
        match c, hcsub, hcpair, hcdesc with
        | [], _, _, _ => exact List.nil_sublist _
        | [x], hcsub, _, _ =>
          rw [List.singleton_sublist, List.mem_reverse]
          exact hcsub.subset (List.mem_singleton_self x)
        | x :: y :: ys, hcsub, hcpair, hcdesc =>
          have hxy : sortCompare cmp x y ≤ 0 :=
            (List.pairwise_cons.mp hcpair).1 y (List.mem_cons_self _ _)
          have hyx : sortCompare cmp y x < 0 :=
            (List.pairwise_cons.mp hcdesc).1 y (List.mem_cons_self _ _)
          have hSx := hrunS x (hcsub.subset (List.mem_cons_self _ _))
          have hSy := hrunS y (hcsub.subset (List.mem_cons_of_mem _ (List.mem_cons_self _ _)))
          exact absurd hyx (hc.not_lt_of_le cmp hSx hSy hxy)
    · have hrun : (a0 :: a1 :: rest.take (runLoop cmp false a1 rest)).Pairwise
          (fun a b => sortCompare cmp a b ≤ 0) := by
        have hr := runLoop_ascending cmp hc a1 rest h1 hrest
        refine List.Pairwise.cons ?_ hr
        have h01 : sortCompare cmp a0 a1 ≤ 0 := hc.le_of_not_lt cmp h0 h1 hdesc
        intro y hy
        rcases List.mem_cons.mp hy with rfl | hy
        · exact h01
        · exact hc.trans_le cmp h0 h1 (hrest y (List.mem_of_mem_take hy)) h01
            ((List.pairwise_cons.mp hr).1 y hy)
      simp only [countRun, hdesc, decide_False, Bool.false_eq_true, if_false,
        List.take_succ_cons]
      exact ⟨List.Perm.refl _, hrun, fun c hcsub _ => hcsub⟩

theorem sort_of_length_lt_two (l : List α) (hlen : l.length < 2) : sort cmp l = l := by
  unfold sort
  rw [if_pos hlen]

theorem sort_of_two_le_length (l : List α) (hlen : ¬ l.length < 2) :
    sort cmp l = binaryInsertionSort cmp
      (if (countRun cmp l).2 then (l.take (countRun cmp l).1).reverse
        else l.take (countRun cmp l).1)
      (l.drop (countRun cmp l).1) := by
  unfold sort
  rw [if_neg hlen]

/-- The output is a rearrangement of the input, whatever the comparator. -/
theorem sort_perm (l : List α) : (sort cmp l).Perm l := by
  by_cases hlen : l.length < 2
  · rw [sort_of_length_lt_two cmp l hlen]
  · rw [sort_of_two_le_length cmp l hlen]
    refine (binaryInsertionSort_perm cmp _ _).trans ?_
    have h1 : (if (countRun cmp l).2 then (l.take (countRun cmp l).1).reverse
        else l.take (countRun cmp l).1).Perm (l.take (countRun cmp l).1) := by
      split_ifs
      · exact List.reverse_perm _
      · exact List.Perm.refl _
    have h2 := List.Perm.append_right (l.drop (countRun cmp l).1) h1
    rw [List.take_append_drop] at h2
    exact h2

theorem mem_sort {l : List α} {a : α} : a ∈ sort cmp l ↔ a ∈ l :=
  (sort_perm cmp l).mem_iff

theorem sort_length (l : List α) : (sort cmp l).length = l.length :=
  (sort_perm cmp l).length_eq

/-- With a comparator that is consistent on the members of the input, the output
is in non-decreasing order and the sort is stable: a subsequence of the input
whose members are pairwise in order is still a subsequence of the output. -/
theorem sort_spec (l : List α) (hc : ConsistentOn cmp (fun a => a ∈ l)) :
    (sort cmp l).Pairwise (fun a b => sortCompare cmp a b ≤ 0) ∧
      ∀ c : List α, c.Sublist l → c.Pairwise (fun a b => sortCompare cmp a b ≤ 0) →
        c.Sublist (sort cmp l) := by
  by_cases hlen : l.length < 2
  · rw [sort_of_length_lt_two cmp l hlen]
    refine ⟨?_, fun c hcsub _ => hcsub⟩
    match l, hlen with
    | [], _ => exact List.Pairwise.nil
    | [a], _ => exact List.pairwise_singleton _ _
    | _ :: _ :: _, hlen =>
      simp only [List.length_cons] at hlen
      omega
  · rw [sort_of_two_le_length cmp l hlen]
    obtain ⟨hperm, hsorted, hstable⟩ := countRun_spec cmp hc l (fun a ha => ha)
    have hres := binaryInsertionSort_spec cmp hc (l.drop (countRun cmp l).1)
      (l.take (countRun cmp l).1) _
      (fun a ha => List.mem_of_mem_take ha) (fun a ha => List.mem_of_mem_drop ha)
      hperm hsorted hstable
    rw [List.take_append_drop] at hres
    exact hres

theorem sort_pairwise (l : List α) (hc : ConsistentOn cmp (fun a => a ∈ l)) :
    (sort cmp l).Pairwise (fun a b => sortCompare cmp a b ≤ 0) :=
  (sort_spec cmp l hc).1

theorem sublist_sort {c l : List α} (hc : ConsistentOn cmp (fun a => a ∈ l))
    (hcl : c.Sublist l) (hpair : c.Pairwise (fun a b => sortCompare cmp a b ≤ 0)) :
    c.Sublist (sort cmp l) :=
  (sort_spec cmp l hc).2 c hcl hpair

/-- An input already in order is returned unchanged. -/
theorem sort_eq_self_of_pairwise (l : List α) (hc : ConsistentOn cmp (fun a => a ∈ l))
    (hl : l.Pairwise (fun a b => sortCompare cmp a b ≤ 0)) : sort cmp l = l :=
  ((sublist_sort cmp hc (List.Sublist.refl l) hl).eq_of_length (sort_length cmp l).symm).symm

end SortLemmas


/-! ### The fuel of the two loops is sufficient -/

/-- The search loop stops on `left = right` and never for lack of fuel: any two
amounts of fuel that cover the interval give the same insertion point. -/
theorem binarySearch_fuel_irrelevant {α : Type} (cmp : α → α → Option Int) (pivot : α)
    (work : List α) (fuel1 fuel2 left right : Nat) (h1 : right - left ≤ fuel1)
    (h2 : right - left ≤ fuel2) :
    binarySearch cmp pivot work fuel1 left right =
      binarySearch cmp pivot work fuel2 left right := by
  induction fuel1 generalizing fuel2 left right with
  | zero =>
    have hlr : ¬ left < right := by omega
    cases fuel2 with
    | zero => rfl
    | succ n => simp [binarySearch, hlr]
  | succ n ih =>
    by_cases hlr : left < right
    · cases fuel2 with
      | zero => omega
      | succ m =>
        unfold binarySearch
        simp only [hlr, if_true]
        cases hw : work[left + (right - left) / 2]? with
        | none => rfl
        | some element =>
          simp only
          split_ifs
          · exact ih m left _ (by omega) (by omega)
          · exact ih m _ right (by omega) (by omega)
    · cases fuel2 with
      | zero => simp [binarySearch, hlr]
      | succ m => simp [binarySearch, hlr]

/-- The halving loop of `roundToDouble` never runs out of fuel: any two amounts
of fuel that are at least the number give the same count. -/
theorem excessBits_fuel_irrelevant (fuel1 fuel2 m : Nat) (h1 : m ≤ fuel1) (h2 : m ≤ fuel2) :
    excessBits fuel1 m = excessBits fuel2 m := by
  induction fuel1 generalizing fuel2 m with
  | zero =>
    have hm : m = 0 := by omega
    subst hm
    cases fuel2 with
    | zero => rfl
    | succ n => simp [excessBits]
  | succ n ih =>
    cases fuel2 with
    | zero =>
      have hm : m = 0 := by omega
      subst hm
      simp [excessBits]
    | succ k =>
      unfold excessBits
      split_ifs with hlt
      · rfl
      · have hpos : 0 < m := by
          have : 0 < 2 ^ 53 := by norm_num
          omega
        have hhalf : m / 2 < m := Nat.div_lt_self hpos (by norm_num)
        rw [ih k (m / 2) (by omega) (by omega)]

/-! ## Lemmas on the built-ins -/

theorem includes_iff (s t : String) : includes s t = true ↔ t.data <:+: s.data := by
  unfold includes
  rw [List.any_eq_true, List.infix_iff_prefix_suffix]
  constructor
  · rintro ⟨u, hu, hp⟩
    exact ⟨u, List.isPrefixOf_iff_prefix.mp hp, (List.mem_tails u s.data).mp hu⟩
  · rintro ⟨u, hp, hu⟩
    exact ⟨u, (List.mem_tails u s.data).mpr hu, List.isPrefixOf_iff_prefix.mpr hp⟩

theorem sliceIndex_of_nonneg (len : Nat) {n : Int} (hn : 0 ≤ n) :
    sliceIndex len n = min n.toNat len := by
  unfold sliceIndex
  rw [if_neg (by omega)]

theorem slice_zero_of_nonneg {α : Type} (xs : List α) {n : Int} (hn : 0 ≤ n) :
    slice xs 0 n = xs.take n.toNat := by
  unfold slice
  rw [sliceIndex_of_nonneg xs.length (le_refl 0), sliceIndex_of_nonneg xs.length hn]
  simp only [Int.toNat_zero, Nat.zero_min, List.drop_zero, Nat.sub_zero]
  rw [List.take_eq_take]
  simp

theorem numIncludes_eq_true_iff (xs : List Int) (v : ParsedNumber) :
    numIncludes xs v = true ↔ ∃ n, v = ParsedNumber.integer n ∧ n ∈ xs := by
  cases v with
  | nan => simp [numIncludes]
  | integer n => simp [numIncludes]
  | infinity negative => simp [numIncludes]

theorem searchFilter_sublist (h : Host) (term : String) (R : List Podcast) :
    (searchFilter h term R).Sublist R := by
  unfold searchFilter
  split
  · exact List.filter_sublist R
  · exact List.Sublist.refl R

theorem genreFilter_sublist (sel : String) (R : List Podcast) :
    (genreFilter sel R).Sublist R := by
  unfold genreFilter
  split
  · exact List.filter_sublist R
  · exact List.Sublist.refl R

theorem filteredBeforeSort_sublist (h : Host) (R : List Podcast) (s : Selectors) :
    (filteredBeforeSort h R s).Sublist R :=
  (genreFilter_sublist _ _).trans (searchFilter_sublist h _ R)

/-! ## Pagination -/

/-- C1: for a positive `displayCount`, `displayedPodcasts` is the prefix of the
filtered-and-sorted list of length `min displayCount |F|`, and `hasMore` holds
exactly when `displayCount < |F|`. -/
theorem displayedPodcasts_prefix_hasMore_iff (h : Host) (R : List Podcast) (s : Selectors)
    (hpos : 0 < s.displayCount) :
    displayedPodcasts h R s =
        (getFilteredAndSortedPodcasts h R s).take
          (min s.displayCount.toNat (getFilteredAndSortedPodcasts h R s).length) ∧
      displayedPodcasts h R s <+: getFilteredAndSortedPodcasts h R s ∧
      (displayedPodcasts h R s).length =
        min s.displayCount.toNat (getFilteredAndSortedPodcasts h R s).length ∧
      (hasMore h R s = true ↔
        s.displayCount < ((getFilteredAndSortedPodcasts h R s).length : Int)) := by
  have hs : displayedPodcasts h R s =
      (getFilteredAndSortedPodcasts h R s).take s.displayCount.toNat := by
    unfold displayedPodcasts
    exact slice_zero_of_nonneg _ (le_of_lt hpos)
  refine ⟨?_, ?_, ?_, ?_⟩
  · rw [hs, List.take_eq_take]
    simp
  · rw [hs]
    exact List.take_prefix _ _
  · rw [hs, List.length_take]
  · unfold hasMore
    exact decide_eq_true_iff

/-- Witness of C1 on the scenario records with `displayCount = 1`. -/
theorem displayedPodcasts_prefix_hasMore_iff_witness :
    0 < oneAtATime.displayCount ∧
      (displayedPodcasts refHost scenarioRecords oneAtATime).length =
        min oneAtATime.displayCount.toNat
          (getFilteredAndSortedPodcasts refHost scenarioRecords oneAtATime).length ∧
      hasMore refHost scenarioRecords oneAtATime = true :=
  ⟨by decide,
   (displayedPodcasts_prefix_hasMore_iff refHost scenarioRecords oneAtATime (by decide)).2.2.1,
   by decide⟩

/-! ## The two filters -/

/-- C2: the search stage keeps, in order, exactly the records whose lower-cased
title contains the lower-cased search term as a contiguous run of characters, and
every record when the term is empty; with the empty term and the genre selector
`"all"` the list before sorting is the record list itself. -/
theorem searchFilter_keeps_substring_matches (h : Host) (R : List Podcast) (term : String) :
    searchFilter h term R =
        R.filter (fun p => decide (term = "" ∨
          (h.toLowerCase term).data <:+: (h.toLowerCase p.title).data)) ∧
      (searchFilter h term R).Sublist R ∧
      searchFilter h "" R = R ∧
      ∀ (sortOption : String) (displayCount : Int),
        filteredBeforeSort h R
          { searchTerm := "", sortOption := sortOption, selectedGenre := "all",
            displayCount := displayCount } = R := by
  refine ⟨?_, searchFilter_sublist h term R, ?_, ?_⟩
  · unfold searchFilter
    by_cases ht : term = ""
    · subst ht
      simp
    · rw [if_pos ht]
      apply List.filter_congr
      intro p _
      rw [Bool.eq_iff_iff, includes_iff]
      simp [ht]
  · simp [searchFilter]
  · intro sortOption displayCount
    simp [filteredBeforeSort, searchFilter, genreFilter]

/-- C3: for a genre selector other than `"all"`, the genre stage keeps, in
order, exactly the records whose genre identifiers contain the integer that
`parseInt` reads from the selector, which is the Number `parseInt` returns (so
`"9007199254740993"` reads as `2 ^ 53`); for `"all"` it keeps every record. -/
theorem genreFilter_keeps_exact_members (R : List Podcast) (sel : String) :
    genreFilter sel R =
        R.filter (fun p => decide (sel = "all" ∨
          ∃ n ∈ p.genres, parseInt sel = ParsedNumber.integer n)) ∧
      (genreFilter sel R).Sublist R ∧
      genreFilter "all" R = R ∧
      parseInt "1" = ParsedNumber.integer 1 ∧
      (genreFilter "1" scenarioRecords).map (fun p => p.title) = ["Alpha", "Gamma"] ∧
      parseInt "9007199254740993" = ParsedNumber.integer 9007199254740992 ∧
      genreFilter "9007199254740993" [largeGenreRecord] = [largeGenreRecord] := by
  refine ⟨?_, genreFilter_sublist sel R, ?_, by decide, by decide, by decide, by decide⟩
  · unfold genreFilter
    by_cases hs : sel = "all"
    · subst hs
      simp
    · rw [if_pos hs]
      apply List.filter_congr
      intro p _
      rw [Bool.eq_iff_iff, numIncludes_eq_true_iff]
      simp only [hs, false_or, decide_eq_true_eq]
      constructor
      · rintro ⟨n, hn, hmem⟩
        exact ⟨n, hmem, hn⟩
      · rintro ⟨n, hmem, hn⟩
        exact ⟨n, hn, hmem⟩
  · simp [genreFilter]

/-- C10: the list before sorting is a subsequence of the record list (so no
longer than it, and empty when it is empty), and the search and genre filters
give the same list in either order. -/
theorem filters_sublist_and_commute (h : Host) (R : List Podcast) (s : Selectors) :
    (filteredBeforeSort h R s).Sublist R ∧
      (filteredBeforeSort h R s).length ≤ R.length ∧
      filteredBeforeSort h [] s = [] ∧
      genreFilter s.selectedGenre (searchFilter h s.searchTerm R) =
        searchFilter h s.searchTerm (genreFilter s.selectedGenre R) := by
  refine ⟨filteredBeforeSort_sublist h R s, (filteredBeforeSort_sublist h R s).length_le, ?_, ?_⟩
  · exact List.sublist_nil.mp (filteredBeforeSort_sublist h [] s)
  · unfold genreFilter searchFilter
    split <;> split <;> first | rfl | (simp only [List.filter_filter]; apply List.filter_congr; intro p _; exact Bool.and_comm _ _)

/-- C4, as stated, fails: the selector `"99"` has no entry in a genre table with
the identifiers 1 and 2, and still matches a record that lists genre 99. -/
theorem genreFilter_unknown_selector_matches :
    (∀ g ∈ scenarioCatalog, parseInt "99" ≠ ParsedNumber.integer g.id) ∧
      genreFilter "99" (uncataloguedRecord :: scenarioRecords) = [uncataloguedRecord] ∧
      genreFilter "99" (uncataloguedRecord :: scenarioRecords) ≠ [] := by
  decide

/-- C4, amended: when every genre identifier of every record has an entry in
the genre table, a selector other than `"all"` whose `parseInt` value is the
identifier of no entry of the table yields the empty list. The stage is a total
function: it never fails. -/
theorem genreFilter_unknown_selector_empty (catalog : List Genre) (R : List Podcast)
    (sel : String) (hsel : sel ≠ "all")
    (hR : ∀ p ∈ R, ∀ i ∈ p.genres, ∃ g ∈ catalog, g.id = i)
    (hunk : ∀ g ∈ catalog, parseInt sel ≠ ParsedNumber.integer g.id) :
    genreFilter sel R = [] := by
  unfold genreFilter
  rw [if_pos hsel, List.filter_eq_nil_iff]
  intro p hp hinc
  obtain ⟨n, hn, hmem⟩ := (numIncludes_eq_true_iff _ _).mp hinc
  obtain ⟨g, hg, hgi⟩ := hR p hp n hmem
  exact hunk g hg (by rw [hn, hgi])

/-- Witness of amended C4: the scenario records, the table with identifiers 1
and 2, and the selector `"99"`. -/
theorem genreFilter_unknown_selector_empty_witness :
    ("99" ≠ "all" ∧ (∀ p ∈ scenarioRecords, ∀ i ∈ p.genres, ∃ g ∈ scenarioCatalog, g.id = i) ∧
      ∀ g ∈ scenarioCatalog, parseInt "99" ≠ ParsedNumber.integer g.id) ∧
      genreFilter "99" scenarioRecords = [] :=
  ⟨by decide,
   genreFilter_unknown_selector_empty scenarioCatalog scenarioRecords "99" (by decide)
     (by decide) (by decide)⟩

/-! ## Consistency of the comparators -/

theorem compareKeys_neg_iff_pos (a b : List Nat) : compareKeys a b < 0 ↔ 0 < compareKeys b a := by
  induction a generalizing b with
  | nil => cases b <;> simp [compareKeys]
  | cons x xs ih =>
    cases b with
    | nil => simp [compareKeys]
    | cons y ys =>
      simp only [compareKeys]
      have := ih ys
      split_ifs <;> omega

theorem compareKeys_eq_zero_iff (a b : List Nat) : compareKeys a b = 0 ↔ a = b := by
  induction a generalizing b with
  | nil => cases b <;> simp [compareKeys]
  | cons x xs ih =>
    cases b with
    | nil => simp [compareKeys]
    | cons y ys =>
      simp only [compareKeys, List.cons.injEq]
      have := ih ys
      split_ifs with h1 h2
      · simp; omega
      · simp; omega
      · have hxy : x = y := by omega
        simp [hxy, this]

theorem compareKeys_trans_neg (a b c : List Nat) (hab : compareKeys a b < 0)
    (hbc : compareKeys b c < 0) : compareKeys a c < 0 := by
  induction a generalizing b c with
  | nil =>
    cases c with
    | nil => cases b <;> simp [compareKeys] at hab hbc
    | cons z zs => simp [compareKeys]
  | cons x xs ih =>
    cases b with
    | nil => simp [compareKeys] at hab
    | cons y ys =>
      cases c with
      | nil => simp [compareKeys] at hbc
      | cons z zs =>
        simp only [compareKeys] at hab hbc ⊢
        have := ih ys zs
        split_ifs at hab hbc ⊢ <;> omega

/-- The reference host meets the ECMAScript requirement on `localeCompare`. -/
theorem refHost_consistent : refHost.Consistent := by
  refine ⟨?_, ?_, ?_⟩
  · intro a b _ _
    exact compareKeys_neg_iff_pos _ _
  · intro a b c _ _ _ hab hbc
    simp only [sortCompare, Option.getD_some, refHost, collationCompare] at hab hbc ⊢
    rw [compareKeys_eq_zero_iff] at hab hbc ⊢
    exact hab.trans hbc
  · intro a b c _ _ _ hab hbc
    exact compareKeys_trans_neg _ _ _ hab hbc

theorem Host.Consistent.compare_self {h : Host} (hh : h.Consistent) (t : String) :
    h.localeCompare t t = 0 := by
  have := hh.antisymm t t trivial trivial
  simp only [sortCompare, Option.getD_some] at this
  omega

theorem sortCompare_az (h : Host) (a b : Podcast) :
    sortCompare (compareFn h "a-z") a b = h.localeCompare a.title b.title := by
  simp [sortCompare, compareFn]

theorem sortCompare_za (h : Host) (a b : Podcast) :
    sortCompare (compareFn h "z-a") a b = h.localeCompare b.title a.title := by
  simp [sortCompare, compareFn]

theorem compareFn_az_consistent {h : Host} (hh : h.Consistent) :
    ConsistentOn (compareFn h "a-z") (fun _ => True) := by
  refine ⟨?_, ?_, ?_⟩
  · intro a b _ _
    rw [sortCompare_az, sortCompare_az]
    exact hh.antisymm a.title b.title trivial trivial
  · intro a b c _ _ _
    rw [sortCompare_az, sortCompare_az, sortCompare_az]
    exact hh.trans_eq a.title b.title c.title trivial trivial trivial
  · intro a b c _ _ _
    rw [sortCompare_az, sortCompare_az, sortCompare_az]
    exact hh.trans_lt a.title b.title c.title trivial trivial trivial

theorem compareFn_za_consistent {h : Host} (hh : h.Consistent) :
    ConsistentOn (compareFn h "z-a") (fun _ => True) := by
  refine ⟨?_, ?_, ?_⟩
  · intro a b _ _
    rw [sortCompare_za, sortCompare_za]
    exact hh.antisymm b.title a.title trivial trivial
  · intro a b c _ _ _ hab hbc
    rw [sortCompare_za] at hab hbc ⊢
    exact hh.trans_eq c.title b.title a.title trivial trivial trivial hbc hab
  · intro a b c _ _ _ hab hbc
    rw [sortCompare_za] at hab hbc ⊢
    exact hh.trans_lt c.title b.title a.title trivial trivial trivial hbc hab

theorem sortCompare_oldest (h : Host) (a b : Podcast) :
    sortCompare (compareFn h "oldest") a b =
      (dateDiff h a.updated b.updated).getD 0 := by
  simp [sortCompare, compareFn]

theorem sortCompare_mostRecent (h : Host) (a b : Podcast) :
    sortCompare (compareFn h "most-recent") a b =
      (dateDiff h b.updated a.updated).getD 0 := by
  simp [sortCompare, compareFn]

theorem dateDiff_of_valid (h : Host) {x y : String} {tx ty : Int}
    (hx : h.parseDate x = some tx) (hy : h.parseDate y = some ty) :
    dateDiff h x y = some (tx - ty) := by
  simp [dateDiff, hx, hy]

theorem dateDiff_eq_none (h : Host) (x y : String)
    (hxy : h.parseDate x = none ∨ h.parseDate y = none) : dateDiff h x y = none := by
  unfold dateDiff
  rcases hxy with hx | hy
  · rw [hx]
  · rw [hy]
    cases h.parseDate x <;> rfl

/-- The sign of a date difference is antisymmetric, invalid dates included. -/
theorem dateDiff_antisymm (h : Host) (x y : String) :
    (dateDiff h x y).getD 0 < 0 ↔ 0 < (dateDiff h y x).getD 0 := by
  unfold dateDiff
  cases h.parseDate x <;> cases h.parseDate y <;> simp

theorem hasValidDate_iff (h : Host) (p : Podcast) :
    hasValidDate h p ↔ ∃ t, h.parseDate p.updated = some t := by
  unfold hasValidDate
  exact Option.isSome_iff_exists

theorem compareFn_oldest_consistent (h : Host) :
    ConsistentOn (compareFn h "oldest") (hasValidDate h) := by
  refine ⟨?_, ?_, ?_⟩
  · intro a b _ _
    rw [sortCompare_oldest, sortCompare_oldest]
    exact dateDiff_antisymm h _ _
  · intro a b c ha hb hc
    obtain ⟨ta, hta⟩ := (hasValidDate_iff h a).mp ha
    obtain ⟨tb, htb⟩ := (hasValidDate_iff h b).mp hb
    obtain ⟨tc, htc⟩ := (hasValidDate_iff h c).mp hc
    simp only [sortCompare_oldest, dateDiff_of_valid h hta htb, dateDiff_of_valid h htb htc,
      dateDiff_of_valid h hta htc, Option.getD_some]
    omega
  · intro a b c ha hb hc
    obtain ⟨ta, hta⟩ := (hasValidDate_iff h a).mp ha
    obtain ⟨tb, htb⟩ := (hasValidDate_iff h b).mp hb
    obtain ⟨tc, htc⟩ := (hasValidDate_iff h c).mp hc
    simp only [sortCompare_oldest, dateDiff_of_valid h hta htb, dateDiff_of_valid h htb htc,
      dateDiff_of_valid h hta htc, Option.getD_some]
    omega

theorem compareFn_mostRecent_consistent (h : Host) :
    ConsistentOn (compareFn h "most-recent") (hasValidDate h) := by
  refine ⟨?_, ?_, ?_⟩
  · intro a b _ _
    rw [sortCompare_mostRecent, sortCompare_mostRecent]
    exact dateDiff_antisymm h _ _
  · intro a b c ha hb hc
    obtain ⟨ta, hta⟩ := (hasValidDate_iff h a).mp ha
    obtain ⟨tb, htb⟩ := (hasValidDate_iff h b).mp hb
    obtain ⟨tc, htc⟩ := (hasValidDate_iff h c).mp hc
    simp only [sortCompare_mostRecent, dateDiff_of_valid h htb hta, dateDiff_of_valid h htc htb,
      dateDiff_of_valid h htc hta, Option.getD_some]
    omega
  · intro a b c ha hb hc
    obtain ⟨ta, hta⟩ := (hasValidDate_iff h a).mp ha
    obtain ⟨tb, htb⟩ := (hasValidDate_iff h b).mp hb
    obtain ⟨tc, htc⟩ := (hasValidDate_iff h c).mp hc
    simp only [sortCompare_mostRecent, dateDiff_of_valid h htb hta, dateDiff_of_valid h htc htb,
      dateDiff_of_valid h htc hta, Option.getD_some]
    omega

/-! ## The sort stage -/

theorem filteredBeforeSort_setSortOption (h : Host) (R : List Podcast) (s : Selectors)
    (opt : String) : filteredBeforeSort h R (setSortOption s opt) = filteredBeforeSort h R s :=
  rfl

theorem getFilteredAndSortedPodcasts_perm (h : Host) (R : List Podcast) (s : Selectors) :
    (getFilteredAndSortedPodcasts h R s).Perm (filteredBeforeSort h R s) :=
  sort_perm _ _

/-- C7, as stated, fails: under `"most-recent"` with one undated record in the
list, the comparator returns 0 on the fifth and the seventh record, the fifth
comes first in the filtered list, and the seventh comes first in the result. -/
theorem sort_stage_unstable_with_undated :
    [fifthOfSeven, seventhOfSeven].Sublist
        (filteredBeforeSort refHost undatedAmongSeven
          (setSortOption Selectors.initial "most-recent")) ∧
      compareFn refHost "most-recent" fifthOfSeven seventhOfSeven = some 0 ∧
      (getFilteredAndSortedPodcasts refHost undatedAmongSeven
          (setSortOption Selectors.initial "most-recent")).map (fun p => p.id) =
        ["6", "7", "1", "2", "3", "4", "5"] ∧
      ¬ [fifthOfSeven, seventhOfSeven].Sublist
        (getFilteredAndSortedPodcasts refHost undatedAmongSeven
          (setSortOption Selectors.initial "most-recent")) := by
  decide

theorem compareFn_other_consistent (h : Host) (opt : String) (h1 : opt ≠ "a-z")
    (h2 : opt ≠ "z-a") (h3 : opt ≠ "most-recent") (h4 : opt ≠ "oldest") (S : Podcast → Prop) :
    ConsistentOn (compareFn h opt) S := by
  have h0 : ∀ a b, sortCompare (compareFn h opt) a b = 0 := by
    intro a b
    simp [sortCompare, compareFn, h1, h2, h3, h4]
  refine ⟨?_, ?_, ?_⟩
  · intro a b _ _
    rw [h0, h0]
  · intro a b c _ _ _ _ _
    exact h0 a c
  · intro a b c _ _ _ hab
    rw [h0] at hab
    exact absurd hab (lt_irrefl 0)

theorem compareFn_consistent_of_option (h : Host) (hh : h.Consistent) (opt : String)
    (hopt : opt ≠ "most-recent" ∧ opt ≠ "oldest") (S : Podcast → Prop) :
    ConsistentOn (compareFn h opt) S := by
  by_cases h1 : opt = "a-z"
  · rw [h1]
    exact (compareFn_az_consistent hh).mono _ (fun _ _ => trivial)
  · by_cases h2 : opt = "z-a"
    · rw [h2]
      exact (compareFn_za_consistent hh).mono _ (fun _ _ => trivial)
    · exact compareFn_other_consistent h opt h1 h2 hopt.1 hopt.2 S

theorem compareFn_time_consistent (h : Host) (opt : String)
    (hopt : opt = "most-recent" ∨ opt = "oldest") :
    ConsistentOn (compareFn h opt) (hasValidDate h) := by
  rcases hopt with ho | ho
  · rw [ho]
    exact compareFn_mostRecent_consistent h
  · rw [ho]
    exact compareFn_oldest_consistent h

/-- C7, amended: the sort stage is stable whenever the active comparator is
consistent on the filtered list: two records of the filtered list on which the
comparator returns 0 keep their relative order. That is the case under `"a-z"`,
`"z-a"` and any unrecognised `sortOption`, and under `"most-recent"` and
`"oldest"` when every `updated` value of the filtered list parses. So records
with equal titles keep their order under `"a-z"` and `"z-a"`, and an unrecognised
`sortOption` returns the filtered list unchanged. -/
theorem sort_stage_stable_of_consistent :
    (∀ (h : Host) (R : List Podcast) (s : Selectors) (a b : Podcast),
        ConsistentOn (compareFn h s.sortOption) (fun p => p ∈ filteredBeforeSort h R s) →
        [a, b].Sublist (filteredBeforeSort h R s) →
        compareFn h s.sortOption a b = some 0 →
        [a, b].Sublist (getFilteredAndSortedPodcasts h R s)) ∧
      (∀ (h : Host), h.Consistent → ∀ (R : List Podcast) (s : Selectors) (a b : Podcast),
        s.sortOption ≠ "most-recent" ∧ s.sortOption ≠ "oldest" →
        [a, b].Sublist (filteredBeforeSort h R s) →
        compareFn h s.sortOption a b = some 0 →
        [a, b].Sublist (getFilteredAndSortedPodcasts h R s)) ∧
      (∀ (h : Host) (R : List Podcast) (s : Selectors) (a b : Podcast),
        s.sortOption = "most-recent" ∨ s.sortOption = "oldest" →
        (∀ p ∈ filteredBeforeSort h R s, hasValidDate h p) →
        [a, b].Sublist (filteredBeforeSort h R s) →
        compareFn h s.sortOption a b = some 0 →
        [a, b].Sublist (getFilteredAndSortedPodcasts h R s)) ∧
      (∀ (h : Host), h.Consistent → ∀ (R : List Podcast) (s : Selectors) (a b : Podcast),
        s.sortOption = "a-z" ∨ s.sortOption = "z-a" → a.title = b.title →
        [a, b].Sublist (filteredBeforeSort h R s) →
        [a, b].Sublist (getFilteredAndSortedPodcasts h R s)) ∧
      (∀ (h : Host) (R : List Podcast) (s : Selectors),
        s.sortOption ≠ "a-z" → s.sortOption ≠ "z-a" → s.sortOption ≠ "most-recent" →
        s.sortOption ≠ "oldest" →
        getFilteredAndSortedPodcasts h R s = filteredBeforeSort h R s) := by
  have key : ∀ (h : Host) (R : List Podcast) (s : Selectors) (a b : Podcast),
      ConsistentOn (compareFn h s.sortOption) (fun p => p ∈ filteredBeforeSort h R s) →
      [a, b].Sublist (filteredBeforeSort h R s) →
      sortCompare (compareFn h s.sortOption) a b = 0 →
      [a, b].Sublist (getFilteredAndSortedPodcasts h R s) := by
    intro h R s a b hc hsub h0
    refine sublist_sort _ hc hsub ?_
    refine List.Pairwise.cons ?_ (List.pairwise_singleton _ _)
    intro c hc'
    rw [List.mem_singleton.mp hc', h0]
  refine ⟨?_, ?_, ?_, ?_, ?_⟩
  · intro h R s a b hc hsub h0
    exact key h R s a b hc hsub (by rw [sortCompare, h0]; rfl)
  · intro h hh R s a b hopt hsub h0
    exact key h R s a b (compareFn_consistent_of_option h hh _ hopt _) hsub
      (by rw [sortCompare, h0]; rfl)
  · intro h R s a b hopt hvalid hsub h0
    exact key h R s a b ((compareFn_time_consistent h _ hopt).mono _ hvalid) hsub
      (by rw [sortCompare, h0]; rfl)
  · intro h hh R s a b hopt htitle hsub
    have hopt' : s.sortOption ≠ "most-recent" ∧ s.sortOption ≠ "oldest" := by
      rcases hopt with ho | ho <;> rw [ho] <;> decide
    refine key h R s a b (compareFn_consistent_of_option h hh _ hopt' _) hsub ?_
    rcases hopt with ho | ho
    · rw [ho, sortCompare_az, htitle]
      exact hh.compare_self _
    · rw [ho, sortCompare_za, htitle]
      exact hh.compare_self _
  · intro h R s h1 h2 h3 h4
    refine sort_eq_self_of_pairwise _ _ (compareFn_other_consistent h _ h1 h2 h3 h4 _) ?_
    refine List.pairwise_of_forall ?_
    intro a b
    simp [sortCompare, compareFn, h1, h2, h3, h4]

/-- Witness of amended C7: under `"z-a"` the two records titled Echo keep their
order. -/
theorem sort_stage_stable_of_consistent_witness :
    (refHost.Consistent ∧
      ((setSortOption Selectors.initial "z-a").sortOption = "a-z" ∨
        (setSortOption Selectors.initial "z-a").sortOption = "z-a") ∧
      echoFirst.title = echoSecond.title ∧
      [echoFirst, echoSecond].Sublist
        (filteredBeforeSort refHost sameTitleRecords (setSortOption Selectors.initial "z-a"))) ∧
      [echoFirst, echoSecond].Sublist
        (getFilteredAndSortedPodcasts refHost sameTitleRecords
          (setSortOption Selectors.initial "z-a")) :=
  ⟨⟨refHost_consistent, Or.inr rfl, rfl, by decide⟩,
   sort_stage_stable_of_consistent.2.2.2.1 refHost refHost_consistent sameTitleRecords
     (setSortOption Selectors.initial "z-a") echoFirst echoSecond (Or.inr rfl) rfl (by decide)⟩

theorem mem_of_mem_getFilteredAndSortedPodcasts {h : Host} {R : List Podcast} {s : Selectors}
    {p : Podcast} (hp : p ∈ getFilteredAndSortedPodcasts h R s) : p ∈ R :=
  (filteredBeforeSort_sublist h R s).subset ((getFilteredAndSortedPodcasts_perm h R s).mem_iff.mp hp)

/-- C8: when every `updated` value parses, the result is a permutation of the
filtered list, in non-increasing order of time value under `"most-recent"` and in
non-decreasing order under `"oldest"`. -/
theorem time_sort_ordered (h : Host) (R : List Podcast) (s : Selectors)
    (hvalid : ∀ p ∈ R, hasValidDate h p) :
    (getFilteredAndSortedPodcasts h R s).Perm (filteredBeforeSort h R s) ∧
      (s.sortOption = "most-recent" →
        (getFilteredAndSortedPodcasts h R s).Pairwise (fun a b =>
          ∃ ta tb, h.parseDate a.updated = some ta ∧ h.parseDate b.updated = some tb ∧
            tb ≤ ta)) ∧
      (s.sortOption = "oldest" →
        (getFilteredAndSortedPodcasts h R s).Pairwise (fun a b =>
          ∃ ta tb, h.parseDate a.updated = some ta ∧ h.parseDate b.updated = some tb ∧
            ta ≤ tb)) := by
  have hmem : ∀ a, a ∈ filteredBeforeSort h R s → hasValidDate h a :=
    fun a ha => hvalid a ((filteredBeforeSort_sublist h R s).subset ha)
  refine ⟨getFilteredAndSortedPodcasts_perm h R s, ?_, ?_⟩
  · intro ho
    have hsorted : (getFilteredAndSortedPodcasts h R s).Pairwise
        (fun a b => sortCompare (compareFn h "most-recent") a b ≤ 0) := by
      unfold getFilteredAndSortedPodcasts
      rw [ho]
      exact sort_pairwise _ _ ((compareFn_mostRecent_consistent h).mono _ hmem)
    refine hsorted.imp_of_mem ?_
    intro a b ha hb hab
    obtain ⟨ta, hta⟩ := (hasValidDate_iff h a).mp
      (hvalid a (mem_of_mem_getFilteredAndSortedPodcasts ha))
    obtain ⟨tb, htb⟩ := (hasValidDate_iff h b).mp
      (hvalid b (mem_of_mem_getFilteredAndSortedPodcasts hb))
    rw [sortCompare_mostRecent, dateDiff_of_valid h htb hta, Option.getD_some] at hab
    exact ⟨ta, tb, hta, htb, by omega⟩
  · intro ho
    have hsorted : (getFilteredAndSortedPodcasts h R s).Pairwise
        (fun a b => sortCompare (compareFn h "oldest") a b ≤ 0) := by
      unfold getFilteredAndSortedPodcasts
      rw [ho]
      exact sort_pairwise _ _ ((compareFn_oldest_consistent h).mono _ hmem)
    refine hsorted.imp_of_mem ?_
    intro a b ha hb hab
    obtain ⟨ta, hta⟩ := (hasValidDate_iff h a).mp
      (hvalid a (mem_of_mem_getFilteredAndSortedPodcasts ha))
    obtain ⟨tb, htb⟩ := (hasValidDate_iff h b).mp
      (hvalid b (mem_of_mem_getFilteredAndSortedPodcasts hb))
    rw [sortCompare_oldest, dateDiff_of_valid h hta htb, Option.getD_some] at hab
    exact ⟨ta, tb, hta, htb, by omega⟩

/-- Witness of C8: the scenario records under `"most-recent"` come out as Alpha
(day 3), Gamma (day 2), beta (day 1). -/
theorem time_sort_ordered_witness :
    ((∀ p ∈ scenarioRecords, hasValidDate refHost p) ∧
      (setSortOption Selectors.initial "most-recent").sortOption = "most-recent") ∧
      (getFilteredAndSortedPodcasts refHost scenarioRecords
          (setSortOption Selectors.initial "most-recent")).Pairwise (fun a b =>
        ∃ ta tb, refHost.parseDate a.updated = some ta ∧
          refHost.parseDate b.updated = some tb ∧ tb ≤ ta) ∧
      (getFilteredAndSortedPodcasts refHost scenarioRecords
          (setSortOption Selectors.initial "most-recent")).map (fun p => p.title) =
        ["Alpha", "Gamma", "beta"] :=
  ⟨⟨by decide, rfl⟩,
   (time_sort_ordered refHost scenarioRecords (setSortOption Selectors.initial "most-recent")
     (by decide)).2.1 rfl,
   by decide⟩

/-- C9, as stated, fails on its example: under a collation that ranks letters
alphabetically before looking at case, the titles Alpha, beta, Gamma come out as
Alpha, beta, Gamma and not as Alpha, Gamma, beta. -/
theorem az_scenario_not_code_unit_order :
    (getFilteredAndSortedPodcasts refHost scenarioRecords Selectors.initial).map
        (fun p => p.title) = ["Alpha", "beta", "Gamma"] ∧
      (getFilteredAndSortedPodcasts refHost scenarioRecords Selectors.initial).map
        (fun p => p.title) ≠ ["Alpha", "Gamma", "beta"] := by
  decide

/-- C9, amended: with `localeCompare` a consistent comparator, the result under
`"a-z"` is a permutation of the filtered list in non-decreasing collation order of
titles; and on every host that ranks Alpha before beta and beta before Gamma the
scenario records come out as Alpha, beta, Gamma. -/
theorem az_sort_ordered (h : Host) (hh : h.Consistent) :
    (∀ (R : List Podcast) (s : Selectors), s.sortOption = "a-z" →
        (getFilteredAndSortedPodcasts h R s).Perm (filteredBeforeSort h R s) ∧
        (getFilteredAndSortedPodcasts h R s).Pairwise
          (fun a b => h.localeCompare a.title b.title ≤ 0)) ∧
      (h.localeCompare "Alpha" "beta" < 0 → h.localeCompare "beta" "Gamma" < 0 →
        (getFilteredAndSortedPodcasts h scenarioRecords Selectors.initial).map
          (fun p => p.title) = ["Alpha", "beta", "Gamma"]) := by
  refine ⟨?_, ?_⟩
  · intro R s ho
    refine ⟨getFilteredAndSortedPodcasts_perm h R s, ?_⟩
    have hsorted : (getFilteredAndSortedPodcasts h R s).Pairwise
        (fun a b => sortCompare (compareFn h "a-z") a b ≤ 0) := by
      unfold getFilteredAndSortedPodcasts
      rw [ho]
      exact sort_pairwise _ _ ((compareFn_az_consistent hh).mono _ (fun _ _ => trivial))
    refine hsorted.imp ?_
    intro a b hab
    rwa [sortCompare_az] at hab
  · intro hab hbg
    have hag : h.localeCompare "Alpha" "Gamma" < 0 := by
      have := hh.trans_lt "Alpha" "beta" "Gamma" trivial trivial trivial
      simp only [sortCompare, Option.getD_some] at this
      exact this hab hbg
    have hF : filteredBeforeSort h scenarioRecords Selectors.initial = scenarioRecords := by
      simp [filteredBeforeSort, searchFilter, genreFilter, Selectors.initial]
    have hs : getFilteredAndSortedPodcasts h scenarioRecords Selectors.initial =
        scenarioRecords := by
      unfold getFilteredAndSortedPodcasts
      rw [hF]
      refine sort_eq_self_of_pairwise _ _
        ((compareFn_az_consistent hh).mono _ (fun _ _ => trivial)) ?_
      simp only [scenarioRecords, Selectors.initial, sortCompare_az, List.pairwise_cons,
        List.mem_cons, List.mem_singleton, forall_eq_or_imp, forall_eq, List.not_mem_nil,
        false_implies, implies_true, List.Pairwise.nil, and_true]
      omega
    rw [hs]
    rfl

/-- Witness of amended C9 on the reference host. -/
theorem az_sort_ordered_witness :
    refHost.Consistent ∧ refHost.localeCompare "Alpha" "beta" < 0 ∧
      refHost.localeCompare "beta" "Gamma" < 0 ∧
      (getFilteredAndSortedPodcasts refHost scenarioRecords Selectors.initial).map
        (fun p => p.title) = ["Alpha", "beta", "Gamma"] :=
  ⟨refHost_consistent, by decide, by decide,
   (az_sort_ordered refHost refHost_consistent).2 (by decide) (by decide)⟩

/-- C6, as stated, fails: two titles that are different strings but canonically
equivalent compare equal, so both `"a-z"` and `"z-a"` keep the two records in
their original order and the reversed `"a-z"` list is not the `"z-a"` list. -/
theorem reverse_az_ne_za_distinct_titles :
    (equivalentTitleRecords.map (fun p => p.title)).Nodup ∧
      getFilteredAndSortedPodcasts refHost equivalentTitleRecords
          (setSortOption Selectors.initial "a-z") = equivalentTitleRecords ∧
      getFilteredAndSortedPodcasts refHost equivalentTitleRecords
          (setSortOption Selectors.initial "z-a") = equivalentTitleRecords ∧
      (getFilteredAndSortedPodcasts refHost equivalentTitleRecords
          (setSortOption Selectors.initial "a-z")).reverse ≠
        getFilteredAndSortedPodcasts refHost equivalentTitleRecords
          (setSortOption Selectors.initial "z-a") := by
  decide

/-- C6, amended: with `localeCompare` a consistent comparator and a record list
in which no two titles compare equal under `localeCompare`, reversing the `"a-z"`
result gives exactly the `"z-a"` result. -/
theorem reverse_az_eq_za (h : Host) (hh : h.Consistent) (R : List Podcast) (s : Selectors)
    (hne : R.Pairwise (fun a b => h.localeCompare a.title b.title ≠ 0)) :
    (getFilteredAndSortedPodcasts h R (setSortOption s "a-z")).reverse =
      getFilteredAndSortedPodcasts h R (setSortOption s "z-a") := by
  have hsymm : ∀ {a b : Podcast}, h.localeCompare a.title b.title ≠ 0 →
      h.localeCompare b.title a.title ≠ 0 := by
    intro a b hab hba
    apply hab
    have := (compareFn_az_consistent hh).eq_symm (compareFn h "a-z") (a := b) (b := a)
      trivial trivial
    rw [sortCompare_az, sortCompare_az] at this
    exact this hba
  have hF : (filteredBeforeSort h R s).Pairwise
      (fun a b => h.localeCompare a.title b.title ≠ 0) :=
    hne.sublist (filteredBeforeSort_sublist h R s)
  have hA : (getFilteredAndSortedPodcasts h R (setSortOption s "a-z")).Pairwise
      (fun a b => h.localeCompare a.title b.title < 0) := by
    have h1 : (getFilteredAndSortedPodcasts h R (setSortOption s "a-z")).Pairwise
        (fun a b => sortCompare (compareFn h "a-z") a b ≤ 0) :=
      sort_pairwise _ _ ((compareFn_az_consistent hh).mono _ (fun _ _ => trivial))
    have h2 : (getFilteredAndSortedPodcasts h R (setSortOption s "a-z")).Pairwise
        (fun a b => h.localeCompare a.title b.title ≠ 0) :=
      (getFilteredAndSortedPodcasts_perm h R (setSortOption s "a-z")).symm.pairwise hF hsymm
    refine (h1.and h2).imp ?_
    intro a b hab
    have h3 := hab.1
    rw [sortCompare_az] at h3
    exact lt_of_le_of_ne h3 hab.2
  have hZ : (getFilteredAndSortedPodcasts h R (setSortOption s "z-a")).reverse.Pairwise
      (fun a b => h.localeCompare a.title b.title < 0) := by
    rw [List.pairwise_reverse]
    have h1 : (getFilteredAndSortedPodcasts h R (setSortOption s "z-a")).Pairwise
        (fun a b => sortCompare (compareFn h "z-a") a b ≤ 0) :=
      sort_pairwise _ _ ((compareFn_za_consistent hh).mono _ (fun _ _ => trivial))
    have h2 : (getFilteredAndSortedPodcasts h R (setSortOption s "z-a")).Pairwise
        (fun a b => h.localeCompare a.title b.title ≠ 0) :=
      (getFilteredAndSortedPodcasts_perm h R (setSortOption s "z-a")).symm.pairwise hF hsymm
    refine (h1.and h2).imp ?_
    intro a b hab
    have h3 := hab.1
    rw [sortCompare_za] at h3
    exact lt_of_le_of_ne h3 (hsymm hab.2)
  have hperm : (getFilteredAndSortedPodcasts h R (setSortOption s "a-z")).Perm
      (getFilteredAndSortedPodcasts h R (setSortOption s "z-a")).reverse :=
    ((getFilteredAndSortedPodcasts_perm h R (setSortOption s "a-z")).trans
      (getFilteredAndSortedPodcasts_perm h R (setSortOption s "z-a")).symm).trans
      (List.reverse_perm _).symm
  haveI : IsAntisymm Podcast (fun a b => h.localeCompare a.title b.title < 0) :=
    ⟨fun a b hab hba => by
      have := (compareFn_az_consistent hh).antisymm a b trivial trivial
      rw [sortCompare_az, sortCompare_az] at this
      have := this.mp hab
      omega⟩
  have heq := List.eq_of_perm_of_sorted hperm hA hZ
  rw [heq, List.reverse_reverse]

/-- Witness of amended C6 on the scenario records. -/
theorem reverse_az_eq_za_witness :
    (refHost.Consistent ∧
      scenarioRecords.Pairwise (fun a b => refHost.localeCompare a.title b.title ≠ 0)) ∧
      (getFilteredAndSortedPodcasts refHost scenarioRecords
          (setSortOption Selectors.initial "a-z")).reverse =
        getFilteredAndSortedPodcasts refHost scenarioRecords
          (setSortOption Selectors.initial "z-a") :=
  ⟨⟨refHost_consistent, by decide⟩,
   reverse_az_eq_za refHost refHost_consistent scenarioRecords Selectors.initial (by decide)⟩

/-- C5, as stated, fails on its consistency part: there is no fallback for an
unparseable `updated` value, the comparator yields `NaN` there, which `sort`
reads as "equal", so "compares equal" is not transitive: the early record
equals the undated one, the undated one equals the late one, yet early and late
differ. The list is then left in an order that is not by time. -/
theorem time_comparator_not_consistent :
    compareFn refHost "oldest" datedEarly undated = none ∧
      sortCompare (compareFn refHost "oldest") datedEarly undated = 0 ∧
      sortCompare (compareFn refHost "oldest") undated datedLate = 0 ∧
      sortCompare (compareFn refHost "oldest") datedEarly datedLate ≠ 0 ∧
      sortCompare (compareFn refHost "most-recent") datedEarly undated = 0 ∧
      sortCompare (compareFn refHost "most-recent") undated datedLate = 0 ∧
      sortCompare (compareFn refHost "most-recent") datedEarly datedLate ≠ 0 ∧
      ¬ ConsistentOn (compareFn refHost "oldest") (fun p => p ∈ malformedDateRecords) ∧
      ¬ ConsistentOn (compareFn refHost "most-recent") (fun p => p ∈ malformedDateRecords) ∧
      getFilteredAndSortedPodcasts refHost malformedDateRecords
        (setSortOption Selectors.initial "most-recent") = [datedEarly, undated, datedLate] := by
  refine ⟨by decide, by decide, by decide, by decide, by decide, by decide, by decide, ?_, ?_,
    by decide⟩
  · intro hc
    exact absurd (hc.trans_eq datedEarly undated datedLate (by decide) (by decide) (by decide)
      (by decide) (by decide)) (by decide)
  · intro hc
    exact absurd (hc.trans_eq datedEarly undated datedLate (by decide) (by decide) (by decide)
      (by decide) (by decide)) (by decide)

/-- C5, amended: under `"most-recent"` and `"oldest"` the derivation never
fails, whatever the `updated` values: it returns a permutation of the filtered
list. The comparator has no fallback: it yields `NaN` as soon as one of the two
`updated` values does not parse. Its sign is antisymmetric on all records, and it
is a consistent comparator on the records whose `updated` value parses. -/
theorem time_comparator_total_and_consistent_on_valid (h : Host) (opt : String)
    (hopt : opt = "most-recent" ∨ opt = "oldest") :
    (∀ (R : List Podcast) (s : Selectors),
        (getFilteredAndSortedPodcasts h R (setSortOption s opt)).Perm
          (filteredBeforeSort h R s)) ∧
      (∀ a b : Podcast, ¬ (hasValidDate h a ∧ hasValidDate h b) →
        compareFn h opt a b = none) ∧
      (∀ a b : Podcast, sortCompare (compareFn h opt) a b < 0 ↔
        0 < sortCompare (compareFn h opt) b a) ∧
      ConsistentOn (compareFn h opt) (hasValidDate h) := by
  have hnone : ∀ p : Podcast, ¬ hasValidDate h p → h.parseDate p.updated = none := by
    intro p hp
    unfold hasValidDate at hp
    cases hq : h.parseDate p.updated with
    | none => rfl
    | some t => rw [hq] at hp; exact absurd rfl hp
  refine ⟨fun R s => getFilteredAndSortedPodcasts_perm h R (setSortOption s opt), ?_, ?_, ?_⟩
  · intro a b hab
    have hor : h.parseDate a.updated = none ∨ h.parseDate b.updated = none := by
      by_cases ha : hasValidDate h a
      · exact Or.inr (hnone b (fun hb => hab ⟨ha, hb⟩))
      · exact Or.inl (hnone a ha)
    rcases hopt with ho | ho
    · subst ho
      simp only [compareFn, String.reduceEq, if_false, if_true]
      exact dateDiff_eq_none h _ _ hor.symm
    · subst ho
      simp only [compareFn, String.reduceEq, if_false, if_true]
      exact dateDiff_eq_none h _ _ hor
  · intro a b
    rcases hopt with ho | ho
    · subst ho
      rw [sortCompare_mostRecent, sortCompare_mostRecent]
      exact dateDiff_antisymm h _ _
    · subst ho
      rw [sortCompare_oldest, sortCompare_oldest]
      exact dateDiff_antisymm h _ _
  · rcases hopt with ho | ho
    · subst ho
      exact compareFn_mostRecent_consistent h
    · subst ho
      exact compareFn_oldest_consistent h

/-- Witness of amended C5: `"oldest"` on the list with an undated record. -/
theorem time_comparator_total_and_consistent_on_valid_witness :
    ("oldest" = "most-recent" ∨ "oldest" = "oldest") ∧
      (getFilteredAndSortedPodcasts refHost malformedDateRecords
          (setSortOption Selectors.initial "oldest")).Perm
        (filteredBeforeSort refHost malformedDateRecords Selectors.initial) ∧
      compareFn refHost "oldest" datedEarly undated = none :=
  ⟨Or.inr rfl,
   (time_comparator_total_and_consistent_on_valid refHost "oldest" (Or.inr rfl)).1
     malformedDateRecords Selectors.initial,
   by decide⟩

end PodcastApp
